import Mathlib

/-!
Verification of the DrahtBot conflict engine and metadata-comment ("Annotation")
machinery, shallowly embedded from `src/scripts/util/util.py` and
`src/scripts/conflicts.py`.  Python strings are modelled as lists of
characters (`Str`); the GitHub forge and the git working tree are modelled as
explicit state (comment lists, merge oracles), and remote comment writes as an
explicit `Write` list.
-/

abbrev Str := List Char

/-- The section marker opener `<!--` that `util.get_metadata_sections`
splits comment bodies on. -/
def MARK : Str := ['<', '!', '-', '-']

/-- The marker closer `-->` that `util.update_metadata_comment` and
`util.get_section_text` split a section on (`s.split('-->', 1)`). -/
def ARROW : Str := ['-', '-', '>']

/-- Python `s.split('<!--')`, accumulator form.  Scans left to right, cutting
at every occurrence of `<!--`. -/
def splitMarkAux : Str → Str → List Str
  | '<' :: '!' :: '-' :: '-' :: rest, acc => acc.reverse :: splitMarkAux rest []
  | c :: rest, acc => splitMarkAux rest (c :: acc)
  | [], acc => [acc.reverse]

/-- Python `s.split('<!--')`. -/
def splitMark (s : Str) : List Str := splitMarkAux s []

/-- Python `s.split('-->', 1)[1]`: the text after the first `-->`.
`none` models the `IndexError` Python raises when `-->` is absent
(unreachable for sections starting with a full `<!--...-->` marker). -/
def afterArrow : Str → Option Str
  | '-' :: '-' :: '>' :: rest => some rest
  | _ :: rest => afterArrow rest
  | [] => none

/-- Whether `<!--` occurs anywhere in `s` (Python `'<!--' in s`). -/
def containsMark : Str → Bool
  | '<' :: '!' :: '-' :: '-' :: _ => true
  | _ :: rest => containsMark rest
  | [] => false

/-- A string free of embedded `<!--` markers. -/
def clean (s : Str) : Prop := containsMark s = false

instance (s : Str) : Decidable (clean s) := by unfold clean; infer_instance

/-- Python string `<=`: lexicographic comparison by code point. -/
def strLeB : Str → Str → Bool
  | [], _ => true
  | _ :: _, [] => false
  | a :: as, b :: bs => if a < b then true else if a = b then strLeB as bs else false

/-- Relation form of `strLeB`, for use with `List.insertionSort`. -/
def strLeR (a b : Str) : Prop := strLeB a b = true

instance : DecidableRel strLeR := fun a b => by unfold strLeR; infer_instance

/-- Python `sorted` on a list of strings: a stable ascending sort by the
lexicographic order; insertion sort is stable, so it computes the same list. -/
def sortStr (l : List Str) : List Str := List.insertionSort strLeR l

/-! Constant markers from `util.IdComment` (values of the enum used by the
conflict engine), and the fixed header that `util.get_metadata_comment` puts
above the sections. -/

/-- `IdComment.METADATA.value`, the marker opening every Annotation comment. -/
def ID_METADATA : Str := ("<!--e57a25ab6845829454e8d69fc972939a-->").data

/-- `IdComment.SEC_CONFLICTS.value`. -/
def ID_SEC_CONFLICTS : Str := ("<!--174a7506f384e20aa4161008e828411d-->").data

/-- `IdComment.SEC_COVERAGE.value`. -/
def ID_SEC_COVERAGE : Str := ("<!--2502f1a698b3751726fa55edcda76cd3-->").data

/-- The fixed text between the metadata marker and the sections. -/
def METADATA_HEADER : Str :=
  ("\n\nThe following sections might be updated with supplementary metadata relevant to reviewers and maintainers.\n\n").data

/-- `util.get_metadata_comment(sections)`:
`''.join([IdComment.METADATA.value + header] + sorted(sections))`. -/
def get_metadata_comment (sections : List Str) : Str :=
  ID_METADATA ++ METADATA_HEADER ++ (sortStr sections).flatten

/-- The section list `util.get_metadata_sections` computes from a comment
body: `['<!--' + s for s in c.body.split('<!--')][2:]`. -/
def parse_sections (body : Str) : List Str :=
  ((splitMark body).map (fun s => MARK ++ s)).drop 2

/-- First comment whose body starts with the metadata marker, with its
position in the comment list (the comment handle `c`). -/
def find_metadata : List Str → Option (Nat × Str)
  | [] => none
  | b :: rest =>
    if ID_METADATA.isPrefixOf b then some (0, b)
    else (find_metadata rest).map (fun ib => (ib.1 + 1, ib.2))

/-- `util.get_metadata_sections(pull)`: the metadata comment (as its index)
and its parsed section list, over the pull's comment list. -/
def get_metadata_sections (comments : List Str) : Option (Nat × List Str) :=
  (find_metadata comments).map (fun ib => (ib.1, parse_sections ib.2))

/-- Body of one section string: `s.split('-->', 1)[1]`. -/
def section_body (s : Str) : Option Str := afterArrow s

/-- First section starting with `section_id` (the `for s in sections` loops). -/
def find_section (section_id : Str) : List Str → Option Str
  | [] => none
  | s :: rest => if section_id.isPrefixOf s then some s else find_section section_id rest

/-- `util.get_section_text(pull, section_id)`. -/
def get_section_text (comments : List Str) (section_id : Str) : Option Str :=
  match get_metadata_sections comments with
  | none => none
  | some (_, secs) =>
    match find_section section_id secs with
    | none => none
    | some s => section_body s

/-- A remote write against the pull's comments: editing comment `i` in place,
or creating a new comment. -/
inductive Write where
  | edit (i : Nat) (body : Str)
  | create (body : Str)
deriving DecidableEq

/-- Outcome of the `for i in range(len(sections))` loop inside
`util.update_metadata_comment`: the first section starting with `section_id`
is found up to date, or replaced by `section_id + text`, or absent. -/
inductive SecUpdate where
  | upToDate
  | replaced (secs : List Str)
  | absent
deriving DecidableEq

/-- The section-list update loop of `util.update_metadata_comment`. -/
def upd_secs (section_id text : Str) : List Str → SecUpdate
  | [] => .absent
  | s :: rest =>
    if section_id.isPrefixOf s then
      if section_body s == some text then .upToDate
      else .replaced ((section_id ++ text) :: rest)
    else
      match upd_secs section_id text rest with
      | .upToDate => .upToDate
      | .replaced l => .replaced (s :: l)
      | .absent => .absent

/-- `util.update_metadata_comment(pull, section_id, text, dry_run)`, returned
as the list of remote writes it performs (those are executed when `dry_run`
is false; with `dry_run` they are only printed). -/
def update_metadata_comment (comments : List Str) (section_id text : Str) : List Write :=
  match get_metadata_sections comments with
  | some (i, secs) =>
    match upd_secs section_id text secs with
    | .upToDate => []
    | .replaced secs2 => [.edit i (get_metadata_comment secs2)]
    | .absent => [.edit i (get_metadata_comment (secs ++ [section_id ++ text]))]
  | none => [.create (get_metadata_comment [section_id ++ text])]

/-- Effect of one write on the pull's comment list. -/
def applyWrite (comments : List Str) : Write → List Str
  | .edit i b => comments.set i b
  | .create b => comments ++ [b]

/-- Effect of a write list, in order. -/
def applyWrites (comments : List Str) (ws : List Write) : List Str :=
  ws.foldl applyWrite comments

/-! The Change-Set Inventory: `util.return_with_pull_metadata`. -/

/-- A pull as the Inventory sees it: its number, the tri-state `mergeable`
attribute (`none` = still unknown on the forge side) and the `merged` flag. -/
structure PullM where
  number : Nat
  mergeable : Option Bool
  merged : Bool
deriving DecidableEq

/-- The list comprehension `[p for p in pulls if p.mergeable is None and not
p.merged]` used as the while condition. -/
def pulls_update_mergeable (pulls : List PullM) : List PullM :=
  pulls.filter (fun p => p.mergeable == none && !p.merged)

/-- The polling loop of `util.return_with_pull_metadata`.  `get k` is the
result of the `k`-th call to `get_pulls()` (the forge may change state between
calls; the `p.update()` refresh requests are recorded in the returned trace as
the refreshed pull numbers, one sublist per loop iteration).  `fuel` bounds
the number of loop iterations; `none` means the loop is still running. -/
def rwpm_go (get : Nat → List PullM) : Nat → List PullM → Nat → Option (List PullM × List (List Nat))
  | fuel, pulls, k =>
    let todo := pulls_update_mergeable pulls
    if todo.isEmpty then some (pulls, [])
    else
      match fuel with
      | 0 => none
      | fuel' + 1 =>
        match rwpm_go get fuel' (get k) (k + 1) with
        | none => none
        | some (r, tr) => some (r, todo.map (fun p => p.number) :: tr)

/-- `util.return_with_pull_metadata(get_pulls)`. -/
def return_with_pull_metadata (get : Nat → List PullM) (fuel : Nat) :
    Option (List PullM × List (List Nat)) :=
  rwpm_go get fuel (get 0) 1

/-! The Conflict Matrix Engine: `scripts/conflicts.py`. -/

/-- A pull as the conflict engine sees it, with the `CON_` attributes that
`main` attaches. -/
structure Pull where
  number : Nat
  title : Str
  login : Str
  html_url : Str
  CON_id : Str
  CON_slug : Str
  CON_commit : Str
  CON_merge_id : Str
deriving DecidableEq

/-- One git action taken inside the scratch working tree. -/
inductive GitOp where
  | checkout (commit : Str)
  | mergeTry (commit : Str) (ok : Bool)
  | mergeAbort
deriving DecidableEq

/-- `calc_merged(pulls_mergeable, base_branch)`.  `mergeOk base c` is the
exit status of `git merge --strategy=ort c` on a tree checked out at `base`,
and `mergeHash base c` the resulting merge commit.  The merge call is *not*
wrapped in try/except, so a failing merge raises `CalledProcessError` out of
the function: `.error (done, p)` records the pulls already processed and the
pull whose base merge failed; the remaining pulls are never processed. -/
def calc_merged (mergeOk : Str → Str → Bool) (mergeHash : Str → Str → Str)
    (base_id : Str) : List Pull → Except (List Pull × Pull) (List Pull)
  | [] => .ok []
  | p :: rest =>
    if mergeOk base_id p.CON_commit then
      match calc_merged mergeOk mergeHash base_id rest with
      | .ok rs => .ok ({ p with CON_merge_id := mergeHash base_id p.CON_commit } :: rs)
      | .error (done, q) => .error ({ p with CON_merge_id := mergeHash base_id p.CON_commit } :: done, q)
    else .error ([], p)

/-- The pairwise loop of `calc_conflicts(pulls_mergeable, pull_check)`:
returns the conflict list together with the git trace. -/
def calc_conflicts_go (mergeOk : Str → Str → Bool) (base_id check_id : Str) :
    List Pull → List Pull × List GitOp
  | [] => ([], [])
  | p :: rest =>
    if check_id == p.CON_id then calc_conflicts_go mergeOk base_id check_id rest
    else
      let res := calc_conflicts_go mergeOk base_id check_id rest
      if mergeOk base_id p.CON_commit then
        (res.1, .checkout base_id :: .mergeTry p.CON_commit true :: res.2)
      else
        (p :: res.1, .checkout base_id :: .mergeTry p.CON_commit false :: .mergeAbort :: res.2)

/-- `calc_conflicts(pulls_mergeable, pull_check)`.  `base_id` resolves
`pull_check.CON_merge_id` (already a commit hash) to itself. -/
def calc_conflicts (mergeOk : Str → Str → Bool) (pulls_mergeable : List Pull)
    (pull_check : Pull) : List Pull × List GitOp :=
  calc_conflicts_go mergeOk pull_check.CON_merge_id pull_check.CON_id pulls_mergeable

/-- Python `str.strip()` (over the ASCII whitespace Lean's `Char.isWhitespace`
covers). -/
def pyStrip (s : Str) : Str :=
  ((s.dropWhile Char.isWhitespace).reverse.dropWhile Char.isWhitespace).reverse

/-- Python `s.removeprefix(pre)`. -/
def removePrefixStr (pre s : Str) : Str :=
  if pre.isPrefixOf s then s.drop pre.length else s

/-- One bullet of the conflicts report. -/
def conflict_item (p : Pull) : Str :=
  ("\n* [#").data ++ removePrefixStr p.CON_slug p.CON_id ++ ("](").data ++ p.html_url
    ++ (") (").data ++ pyStrip p.title ++ (" by ").data ++ p.login ++ (")").data

/-- The section text written when the conflict list is nonempty. -/
def conflicts_text (pulls_conflict : List Pull) : Str :=
  ("\n### Conflicts\n").data
    ++ ("Reviewers, this pull request conflicts with the following ones:\n").data
    ++ (pulls_conflict.map conflict_item).flatten
    ++ ("\n\n").data
    ++ ("If you consider this pull request important, please also help to review the conflicting pull requests. ").data
    ++ ("Ideally, start with the one that should be merged first.").data

/-- The section text written when the conflict list is empty. -/
def NO_CONFLICTS_TEXT : Str := ("\n### Conflicts\nNo conflicts as of last run.").data

/-- `update_comment(dry_run, pull, pulls_conflict)` from
`scripts/conflicts.py`, as the remote writes it performs.  Note the Python
guard `if not get_section_text(...)` is on string truthiness, so both a
missing section and a present section with an empty body lead to no write. -/
def update_comment (comments : List Str) (pulls_conflict : List Pull) : List Write :=
  match pulls_conflict with
  | [] =>
    match get_section_text comments ID_SEC_CONFLICTS with
    | none => []
    | some [] => []
    | some (_ :: _) => update_metadata_comment comments ID_SEC_CONFLICTS NO_CONFLICTS_TEXT
  | _ :: _ => update_metadata_comment comments ID_SEC_CONFLICTS (conflicts_text pulls_conflict)

/-- Decimal rendering of a pull number. -/
def natStr (n : Nat) : Str := (Nat.repr n).data

/-- The per-slug annotation loop body of `main`: store each pull's head
commit (`commitOf` models `git log -1 upstream-pull/<number>/head`) and its
slug-qualified id. -/
def annotate_blob (commitOf : Nat → Str) (slug : Str) (ps : List Pull) : List Pull :=
  ps.map fun p =>
    { p with
      CON_commit := commitOf p.number
      CON_slug := slug ++ ("/").data
      CON_id := slug ++ ("/").data ++ natStr p.number }

/-- The monorepo pooling step of `main`.  In the source the statement
`mono_pulls_mergeable.extend(ps)` sits *outside* the `for slug, ps in zip(...)`
loop, so the empty `mono_pulls_mergeable` list is extended once with the final
loop value of `ps` — the last slug's pulls only.  `none` models the
`NameError` raised when the zip is empty and `ps` was never bound. -/
def build_mono_pulls (commitOf : Nat → Str) (slugs : List Str)
    (pull_blobs : List (List Pull)) : Option (List Pull) :=
  ((slugs.zip pull_blobs).map (fun sb => annotate_blob commitOf sb.1 sb.2)).getLast?

/-- Outcome of the `--pull_id` branch of `main`. -/
inductive LookupOutcome where
  | exited (code : Int) (msg : Str)
  | proceeded (chosen : Pull)
deriving DecidableEq

/-- The message `main` prints before `sys.exit(-1)`. -/
def not_found_msg (pull_id : Str) (n : Nat) (base_name : Str) : Str :=
  pull_id ++ (" not found in all ").data ++ natStr n ++ (" open, mergeable ").data
    ++ base_name ++ (" pulls").data

/-- The `--pull_id` lookup of `main`:
`pull_merge = [p for p in mono_pulls_mergeable if p.CON_id == args.pull_id]`,
then print + `sys.exit(-1)` when the list is empty. -/
def pull_id_lookup (mono_pulls_mergeable : List Pull) (pull_id base_name : Str) :
    LookupOutcome :=
  match mono_pulls_mergeable.filter (fun p => p.CON_id == pull_id) with
  | [] => .exited (-1) (not_found_msg pull_id mono_pulls_mergeable.length base_name)
  | p :: _ => .proceeded p

/-! Concrete fixtures used by witnesses and counterexamples. -/

/-- A pull fixture with the given number and `CON_` attributes. -/
def mkPull (n : Nat) (pid slug commit mergeid : String) : Pull :=
  ⟨n, [], [], [], pid.data, slug.data, commit.data, mergeid.data⟩

/-- Repo `a` pull `1`. -/
def pA : Pull := mkPull 1 "a/1" "a/" "c1" ""

/-- Repo `b` pull `2`. -/
def pB : Pull := mkPull 2 "b/2" "b/" "c2" ""

/-- Repo `b` pull `3`, used as a `pull_check` with merge base `m3`. -/
def pC : Pull := mkPull 3 "b/3" "b/" "c3" "m3"

/-- A merge oracle that fails exactly on commit `c1`. -/
def mergeOk4 : Str → Str → Bool := fun _ c => !(c == ("c1").data)

/-- A merge-commit oracle. -/
def mergeHash4 : Str → Str → Str := fun b c => b ++ c

/-- A merge oracle that fails on every commit. -/
def mergeOkNone : Str → Str → Bool := fun _ _ => false

/-- Raw (not yet annotated) pulls for the pooling fixture. -/
def pA0 : Pull := mkPull 1 "" "" "" ""

/-- Raw (not yet annotated) pull number 2. -/
def pB0 : Pull := mkPull 2 "" "" "" ""

/-- Head-commit oracle for the pooling fixture. -/
def commitOf0 : Nat → Str := fun n => 'c' :: natStr n

/-- A pull whose mergeable tri-state is already resolved. -/
def pmResolved : PullM := ⟨1, some true, false⟩

/-- A forge snapshot function that always returns one resolved pull. -/
def getResolved : Nat → List PullM := fun _ => [pmResolved]

/-- Body carried by a write. -/
def wbody : Write → Str
  | .edit _ b => b
  | .create b => b

/-- A computed section text containing an embedded `<!--` marker. -/
def dirtyText : Str := ("a<!--b").data

/-- A conflicts-section text that embeds the coverage marker. -/
def evilText : Str := ID_SEC_COVERAGE ++ ("evil").data

/-- A pull whose Annotation has a conflicts section with an empty body. -/
def cs_empty_conflicts : List Str := [get_metadata_comment [ID_SEC_CONFLICTS]]

/-- A pull whose Annotation has a coverage section with body `X` and a
conflicts section with body `old`. -/
def cs_cov : List Str :=
  [get_metadata_comment [ID_SEC_COVERAGE ++ ("X").data,
    ID_SEC_CONFLICTS ++ ("old").data]]

/-- The comment state after a first synchronizer run that wrote `dirtyText`. -/
def cs_after_first_run : List Str :=
  applyWrites [] (update_metadata_comment [] ID_SEC_CONFLICTS dirtyText)

/-- A single section whose body embeds a `<!--`. -/
def badSec : Str := ID_SEC_CONFLICTS ++ ("a<!--b").data

/-- A pull whose Annotation has a conflicts section with body `old`. -/
def cs_old : List Str := [get_metadata_comment [ID_SEC_CONFLICTS ++ ("old").data]]

/-! Helper lemmas for the conflict engine. -/

lemma calc_conflicts_go_fst (f : Str → Str → Bool) (b id : Str) (l : List Pull) :
    (calc_conflicts_go f b id l).1 =
      l.filter (fun p => !(id == p.CON_id) && !f b p.CON_commit) := by
  induction l with
  | nil => rfl
  | cons p rest ih =>
    by_cases h : id == p.CON_id
    · simp [calc_conflicts_go, h, List.filter_cons, ih]
    · by_cases hm : f b p.CON_commit
      · simp [calc_conflicts_go, h, hm, List.filter_cons, ih]
      · simp [calc_conflicts_go, h, hm, List.filter_cons, ih]

lemma calc_conflicts_go_abort (f : Str → Str → Bool) (b id : Str) (l : List Pull) :
    ∀ j cm, ((calc_conflicts_go f b id l).2)[j]? = some (.mergeTry cm false) →
      ((calc_conflicts_go f b id l).2)[j + 1]? = some .mergeAbort := by
  induction l with
  | nil => intro j cm h; simp [calc_conflicts_go] at h
  | cons p rest ih =>
    intro j cm h
    by_cases hid : id == p.CON_id
    · simp only [calc_conflicts_go, hid, if_pos] at h ⊢
      exact ih j cm h
    · by_cases hm : f b p.CON_commit
      · simp only [calc_conflicts_go, hid, hm, if_neg, if_pos, Bool.not_eq_true] at h ⊢
        match j with
        | 0 => simp at h
        | 1 => simp at h
        | j + 2 =>
          simp only [List.getElem?_cons_succ] at h ⊢
          exact ih j cm h
      · simp only [calc_conflicts_go, hid, hm, if_neg, Bool.not_eq_true] at h ⊢
        match j with
        | 0 => simp at h
        | 1 => simp
        | 2 => simp at h
        | j + 3 =>
          simp only [List.getElem?_cons_succ] at h ⊢
          exact ih j cm h

/-- C3: the conflict list of `calc_conflicts` is exactly the pulls other than
`pull_check` whose head fails to merge onto `pull_check`'s merge base; a
successful merge records no conflict; `pull_check` is never in its own
conflict list; and every failed merge trial is immediately followed by a
`merge --abort` resetting the working tree. -/
theorem calc_conflicts_pairwise (f : Str → Str → Bool) (pulls : List Pull) (check : Pull) :
    (calc_conflicts f pulls check).1 =
        pulls.filter (fun p => !(check.CON_id == p.CON_id) && !f check.CON_merge_id p.CON_commit)
      ∧ (∀ p ∈ (calc_conflicts f pulls check).1, p.CON_id ≠ check.CON_id)
      ∧ check ∉ (calc_conflicts f pulls check).1
      ∧ (∀ p ∈ pulls, f check.CON_merge_id p.CON_commit = true →
          p ∉ (calc_conflicts f pulls check).1)
      ∧ (∀ j cm, ((calc_conflicts f pulls check).2)[j]? = some (.mergeTry cm false) →
          ((calc_conflicts f pulls check).2)[j + 1]? = some .mergeAbort) := by
  have hfst := calc_conflicts_go_fst f check.CON_merge_id check.CON_id pulls
  have hmem : ∀ p ∈ (calc_conflicts f pulls check).1, p.CON_id ≠ check.CON_id := by
    intro p hp
    rw [calc_conflicts, hfst] at hp
    have := (List.mem_filter.mp hp).2
    simp only [Bool.and_eq_true, Bool.not_eq_true'] at this
    intro hEq
    rw [hEq] at this
    simp at this
  refine ⟨hfst, hmem, ?_, ?_, calc_conflicts_go_abort f check.CON_merge_id check.CON_id pulls⟩
  · intro hin
    exact hmem check hin rfl
  · intro p _ hok hin
    rw [calc_conflicts, hfst] at hin
    have := (List.mem_filter.mp hin).2
    simp [hok] at this

/-- Witness for C3 at a concrete input: the failed trial at trace position 1
is followed by an abort at position 2. -/
theorem calc_conflicts_pairwise_witness :
    ((calc_conflicts mergeOkNone [pB] pC).2)[1 + 1]? = some GitOp.mergeAbort :=
  (calc_conflicts_pairwise mergeOkNone [pB] pC).2.2.2.2 1 (("c2").data) (by decide)

/-- C4 (the code at the failing input): if the speculative merge building the
first change-set's merge base fails locally, the unhandled
`CalledProcessError` aborts the whole `calc_merged` batch — the remaining
pulls are never processed — even though the remaining change-set on its own
would have been processed fine. -/
theorem calc_merged_aborts_batch :
    calc_merged mergeOk4 mergeHash4 (("base").data) [pA, pB] = .error ([], pA)
      ∧ calc_merged mergeOk4 mergeHash4 (("base").data) [pB] =
          .ok [{ pB with CON_merge_id := ("basec2").data }] := by
  constructor
  · rfl
  · rfl

/-- C5 (the code at the failing input): with two tracked repo slugs holding
one mergeable pull each, the pooled `mono_pulls_mergeable` list contains only
the last repo's pull (`b/2`); the first repo's pull is dropped. -/
theorem build_mono_pulls_last_repo_only :
    (build_mono_pulls commitOf0 [("a").data, ("b").data] [[pA0], [pB0]]).map
        (fun l => l.map Pull.CON_id) = some [("b/2").data]
      ∧ ¬ (("a/1").data ∈ ((build_mono_pulls commitOf0 [("a").data, ("b").data]
          [[pA0], [pB0]]).getD []).map Pull.CON_id) := by
  constructor
  · rfl
  · decide

/-! Helper lemmas for the Inventory loop. -/

lemma rwpm_done (pulls : List PullM)
    (he : (pulls_update_mergeable pulls).isEmpty = true) :
    ∀ p ∈ pulls, p.merged = true ∨ p.mergeable ≠ none := by
  intro p hp
  have hfil : pulls_update_mergeable pulls = [] := List.isEmpty_iff.mp he
  rw [pulls_update_mergeable] at hfil
  have hthis := List.filter_eq_nil_iff.mp hfil p hp
  simp only [Bool.and_eq_true, beq_iff_eq, Bool.not_eq_true', not_and] at hthis
  by_cases hm : p.mergeable = none
  · have := hthis hm
    exact Or.inl (by simpa using this)
  · exact Or.inr hm

lemma rwpm_go_resolves (get : Nat → List PullM) :
    ∀ fuel pulls k r tr, rwpm_go get fuel pulls k = some (r, tr) →
      ∀ p ∈ r, p.merged = true ∨ p.mergeable ≠ none := by
  intro fuel
  induction fuel with
  | zero =>
    intro pulls k r tr h p hp
    by_cases he : (pulls_update_mergeable pulls).isEmpty
    · simp only [rwpm_go, he, if_pos] at h
      simp only [Option.some.injEq, Prod.mk.injEq] at h
      obtain ⟨rfl, -⟩ := h
      exact rwpm_done pulls he p hp
    · simp [rwpm_go, he] at h
  | succ fuel ih =>
    intro pulls k r tr h p hp
    by_cases he : (pulls_update_mergeable pulls).isEmpty
    · simp only [rwpm_go, he, if_pos] at h
      simp only [Option.some.injEq, Prod.mk.injEq] at h
      obtain ⟨rfl, -⟩ := h
      exact rwpm_done pulls he p hp
    · simp only [rwpm_go, he, if_neg, Bool.not_eq_true] at h
      cases hrec : rwpm_go get fuel (get k) (k + 1) with
      | none => rw [hrec] at h; simp at h
      | some rt =>
        obtain ⟨r2, tr2⟩ := rt
        rw [hrec] at h
        simp only [Option.some.injEq, Prod.mk.injEq] at h
        obtain ⟨rfl, -⟩ := h
        exact ih (get k) (k + 1) r2 tr2 hrec p hp

lemma rwpm_go_livelock (get : Nat → List PullM)
    (hall : ∀ j, pulls_update_mergeable (get j) ≠ []) :
    ∀ fuel pulls k, pulls_update_mergeable pulls ≠ [] →
      rwpm_go get fuel pulls k = none := by
  intro fuel
  induction fuel with
  | zero =>
    intro pulls k hne
    have : ¬ (pulls_update_mergeable pulls).isEmpty := by
      simpa [List.isEmpty_iff] using hne
    simp [rwpm_go, this]
  | succ fuel ih =>
    intro pulls k hne
    have : ¬ (pulls_update_mergeable pulls).isEmpty := by
      simpa [List.isEmpty_iff] using hne
    simp only [rwpm_go, this, if_neg, Bool.not_eq_true]
    rw [ih (get k) (k + 1) (hall k)]

/-- C6: whenever `return_with_pull_metadata` returns, every entry of the
returned list is either already merged or carries a resolved (non-unknown)
mergeable tri-state; and if every re-fetched list still contains a non-merged
pull with unresolved state, the loop never returns (for any iteration
bound). -/
theorem return_with_pull_metadata_resolves (get : Nat → List PullM) (fuel : Nat) :
    (∀ r tr, return_with_pull_metadata get fuel = some (r, tr) →
        ∀ p ∈ r, p.merged = true ∨ p.mergeable ≠ none)
      ∧ ((∀ j, pulls_update_mergeable (get j) ≠ []) →
          return_with_pull_metadata get fuel = none) := by
  constructor
  · intro r tr h
    exact rwpm_go_resolves get fuel (get 0) 1 r tr h
  · intro hall
    exact rwpm_go_livelock get hall fuel (get 0) 1 (hall 0)

/-- Witness for C6 at a concrete input: a run that terminates yields only
resolved entries. -/
theorem return_with_pull_metadata_resolves_witness :
    pmResolved.merged = true ∨ pmResolved.mergeable ≠ none :=
  (return_with_pull_metadata_resolves getResolved 0).1 [pmResolved] [] rfl
    pmResolved (by decide)

/-- C9: when no pull in the pooled mergeable inventory carries the requested
id, the `--pull_id` branch of `main` prints the not-found message and exits
with the non-zero status `-1` instead of proceeding. -/
theorem pull_id_lookup_not_found (mono : List Pull) (pull_id base_name : Str)
    (h : ∀ p ∈ mono, p.CON_id ≠ pull_id) :
    pull_id_lookup mono pull_id base_name =
        .exited (-1) (not_found_msg pull_id mono.length base_name)
      ∧ (-1 : Int) ≠ 0 := by
  have hfil : mono.filter (fun p => p.CON_id == pull_id) = [] := by
    rw [List.filter_eq_nil_iff]
    intro p hp
    simpa using h p hp
  exact ⟨by simp [pull_id_lookup, hfil], by decide⟩

/-- Witness for C9 at a concrete input. -/
theorem pull_id_lookup_not_found_witness :
    pull_id_lookup [pB] (("zzz").data) (("master").data) =
      LookupOutcome.exited (-1) (not_found_msg (("zzz").data) 1 (("master").data)) :=
  (pull_id_lookup_not_found [pB] (("zzz").data) (("master").data) (by decide)).1

/-! String machinery: facts about `splitMark`, `containsMark`, `afterArrow`. -/

lemma nil_isPrefixOf_true (x : Str) : ([] : Str).isPrefixOf x = true :=
  List.isPrefixOf_iff_prefix.mpr (List.nil_prefix)

lemma prefix_stable (p : Str) : ∀ (s t : Str), p.length ≤ s.length →
    p.isPrefixOf (s ++ t) = p.isPrefixOf s := by
  induction p with
  | nil =>
    intro s t h
    rw [nil_isPrefixOf_true, nil_isPrefixOf_true]
  | cons a p ih =>
    intro s t h
    cases s with
    | nil => simp at h
    | cons b s' =>
      simp only [List.cons_append, List.isPrefixOf, List.append_eq]
      rw [ih s' t (by simpa using h)]

lemma isPrefixOf_append_self (p t : Str) : p.isPrefixOf (p ++ t) = true :=
  List.isPrefixOf_iff_prefix.mpr (List.prefix_append p t)

lemma eq_append_drop_of_isPrefixOf {p s : Str} (h : p.isPrefixOf s = true) :
    p ++ s.drop p.length = s := by
  obtain ⟨t, rfl⟩ := List.isPrefixOf_iff_prefix.mp h
  rw [List.drop_left]

lemma prefix_of_prefix_eq {p q : Str} (t : Str) (hlen : p.length = q.length)
    (h : p.isPrefixOf (q ++ t) = true) : p = q := by
  obtain ⟨u, hu⟩ := List.isPrefixOf_iff_prefix.mp h
  have htake := congrArg (List.take p.length) hu
  rw [List.take_left] at htake
  rw [htake, hlen, List.take_left]

lemma isPrefixOf_mono {p u : Str} (v : Str) (h : p.isPrefixOf u = true) :
    p.isPrefixOf (u ++ v) = true := by
  obtain ⟨t, rfl⟩ := List.isPrefixOf_iff_prefix.mp h
  rw [List.append_assoc]
  exact isPrefixOf_append_self p (t ++ v)

lemma splitMarkAux_mark (rest acc : Str) :
    splitMarkAux (MARK ++ rest) acc = acc.reverse :: splitMarkAux rest [] := rfl

lemma splitMarkAux_nil (acc : Str) : splitMarkAux [] acc = [acc.reverse] := rfl

lemma splitMarkAux_cons (c : Char) (rest acc : Str)
    (h : ¬ MARK.isPrefixOf (c :: rest) = true) :
    splitMarkAux (c :: rest) acc = splitMarkAux rest (c :: acc) := by
  rw [splitMarkAux.eq_def]
  split
  · rename_i r a heq
    exfalso
    apply h
    cases heq
    simp [MARK, List.isPrefixOf]
  · rename_i a b heq hx
    injection hx with h1 h2
    subst h1
    subst h2
    rfl
  · rename_i hx
    exact absurd hx (by simp)

lemma afterArrow_arrow (rest : Str) : afterArrow (ARROW ++ rest) = some rest := rfl

lemma afterArrow_cons (c : Char) (rest : Str)
    (h : ¬ ARROW.isPrefixOf (c :: rest) = true) :
    afterArrow (c :: rest) = afterArrow rest := by
  rw [afterArrow.eq_def]
  split
  · rename_i r hx
    exfalso
    apply h
    cases hx
    simp [ARROW, List.isPrefixOf]
  · rename_i a b heq hx
    injection hx with h1 h2
    subst h1
    subst h2
    rfl
  · rename_i hx
    exact absurd hx (by simp)

lemma containsMark_mark (rest : Str) : containsMark (MARK ++ rest) = true := rfl

lemma containsMark_cons (c : Char) (rest : Str)
    (h : ¬ MARK.isPrefixOf (c :: rest) = true) :
    containsMark (c :: rest) = containsMark rest := by
  rw [containsMark.eq_def]
  split
  · rename_i r heq
    exfalso
    apply h
    cases heq
    simp [MARK, List.isPrefixOf]
  · rename_i a b heq hx
    injection hx with h1 h2
    subst h1
    subst h2
    rfl
  · rename_i hx
    exact absurd hx (by simp)

lemma clean_not_prefix {s : Str} (h : clean s) : MARK.isPrefixOf s = false := by
  cases hp : MARK.isPrefixOf s
  · rfl
  · exfalso
    obtain ⟨t, rfl⟩ := List.isPrefixOf_iff_prefix.mp hp
    rw [clean, containsMark_mark] at h
    simp at h

lemma clean_cons {c : Char} {rest : Str} (h : clean (c :: rest)) : clean rest := by
  have hp : MARK.isPrefixOf (c :: rest) = false := clean_not_prefix h
  rw [clean, containsMark_cons c rest (by simp [hp])] at h
  exact h

lemma containsMark_eq_false_iff (u : Str) :
    containsMark u = false ↔ ∀ i, MARK.isPrefixOf (u.drop i) = false := by
  induction u with
  | nil => simp [containsMark, MARK, List.isPrefixOf]
  | cons c u' ih =>
    cases hp : MARK.isPrefixOf (c :: u')
    · rw [containsMark_cons c u' (by simp [hp]), ih]
      constructor
      · intro hall i
        cases i with
        | zero => simpa using hp
        | succ i => simpa using hall i
      · intro hall i
        simpa using hall (i + 1)
    · obtain ⟨t, hshape⟩ := List.isPrefixOf_iff_prefix.mp hp
      constructor
      · intro hcontra
        exfalso
        rw [← hshape, containsMark_mark] at hcontra
        simp at hcontra
      · intro hall
        exfalso
        have := hall 0
        simp [hp] at this

lemma clean_append_no_lt {u v : Str} (hu : ∀ c ∈ u, ¬ c = '<') (hv : clean v) :
    clean (u ++ v) := by
  induction u with
  | nil => simpa using hv
  | cons c u' ih =>
    have hc : ('<' == c) = false := by
      have hne : ¬ c = '<' := hu c (by simp)
      exact beq_eq_false_iff_ne.mpr (fun hh => hne hh.symm)
    have hp : MARK.isPrefixOf (c :: (u' ++ v)) = false := by
      simp [MARK, List.isPrefixOf, hc]
    rw [clean, List.cons_append, containsMark_cons _ _ (by simp [hp])]
    exact ih (fun d hd => hu d (by simp [hd]))

/-! The scan lemmas: splitting a marker-free run, then a marker. -/

lemma mark_not_prefix_mid (c : Char) (t' r : Str) (h : clean (c :: t')) :
    MARK.isPrefixOf ((c :: t') ++ (MARK ++ r)) = false := by
  have e1 : ('!' == '<') = false := rfl
  have e2 : ('-' == '<') = false := rfl
  have e3 : ('-' == '!') = false := rfl
  match t' with
  | [] => simp [MARK, List.isPrefixOf, e1, e2, e3]
  | [a] => simp [MARK, List.isPrefixOf, e1, e2, e3]
  | [a, b] => simp [MARK, List.isPrefixOf, e1, e2, e3]
  | a :: b :: d :: t4 =>
    have hlen : MARK.length ≤ (c :: a :: b :: d :: t4).length := by simp [MARK]
    rw [prefix_stable MARK _ _ hlen]
    exact clean_not_prefix h

lemma splitMarkAux_clean_nil (t : Str) : ∀ acc, clean t →
    splitMarkAux t acc = [acc.reverse ++ t] := by
  induction t with
  | nil => intro acc h; simp [splitMarkAux_nil]
  | cons c t' ih =>
    intro acc h
    have hp : MARK.isPrefixOf (c :: t') = false := clean_not_prefix h
    rw [splitMarkAux_cons c t' acc (by simp [hp]), ih (c :: acc) (clean_cons h)]
    simp

lemma splitMarkAux_clean_cut (t : Str) : ∀ acc r, clean t →
    splitMarkAux (t ++ (MARK ++ r)) acc = (acc.reverse ++ t) :: splitMarkAux r [] := by
  induction t with
  | nil => intro acc r _; simpa using splitMarkAux_mark r acc
  | cons c t' ih =>
    intro acc r h
    have hp : MARK.isPrefixOf (c :: (t' ++ (MARK ++ r))) = false := by
      have := mark_not_prefix_mid c t' r h
      simpa [List.cons_append] using this
    rw [List.cons_append, splitMarkAux_cons c (t' ++ (MARK ++ r)) acc (by simp [hp]),
      ih (c :: acc) r (clean_cons h)]
    simp

lemma splitMarkAux_join (chunks : List Str) :
    (∀ x ∈ chunks, clean x) → ∀ pre acc, clean pre →
    splitMarkAux (pre ++ (chunks.map (fun t => MARK ++ t)).flatten) acc =
      (acc.reverse ++ pre) :: chunks := by
  induction chunks with
  | nil =>
    intro _ pre acc hpre
    simpa using splitMarkAux_clean_nil pre acc hpre
  | cons t rest ih =>
    intro hall pre acc hpre
    have hflat : (((t :: rest).map (fun x => MARK ++ x)).flatten) =
        MARK ++ (t ++ ((rest.map (fun x => MARK ++ x)).flatten)) := by
      simp [List.append_assoc]
    rw [hflat, splitMarkAux_clean_cut pre acc _ hpre,
      ih (fun x hx => hall x (by simp [hx])) t [] (hall t (by simp))]
    simp

/-! Every chunk produced by `splitMark` is itself free of `<!--`. -/

lemma isPrefixOf_nil_false : MARK.isPrefixOf ([] : Str) = false := rfl

lemma clean_of_inv (acc s : Str)
    (hinv : ∀ i, i < acc.length → MARK.isPrefixOf ((acc ++ s).drop i) = false) :
    clean acc := by
  rw [clean, containsMark_eq_false_iff]
  intro i
  by_cases hi : i < acc.length
  · cases hocc : MARK.isPrefixOf (acc.drop i) with
    | false => rfl
    | true =>
      exfalso
      have hmono := isPrefixOf_mono s hocc
      have hdrop : (acc ++ s).drop i = acc.drop i ++ s := by
        rw [List.drop_append_eq_append_drop]
        have : i - acc.length = 0 := by omega
        rw [this]
        rfl
      rw [← hdrop] at hmono
      rw [hinv i hi] at hmono
      exact Bool.false_ne_true hmono
  · rw [List.drop_eq_nil_of_le (by omega)]
    exact isPrefixOf_nil_false

lemma splitMarkAux_chunks_clean :
    ∀ n s acc, s.length ≤ n →
      (∀ i, i < acc.reverse.length →
        MARK.isPrefixOf ((acc.reverse ++ s).drop i) = false) →
      ∀ t ∈ splitMarkAux s acc, clean t := by
  intro n
  induction n with
  | zero =>
    intro s acc hlen hinv t ht
    have hs : s = [] := List.length_eq_zero.mp (Nat.le_zero.mp hlen)
    subst hs
    rw [splitMarkAux_nil] at ht
    simp only [List.mem_singleton] at ht
    subst ht
    exact clean_of_inv acc.reverse [] hinv
  | succ n ih =>
    intro s acc hlen hinv t ht
    cases s with
    | nil =>
      rw [splitMarkAux_nil] at ht
      simp only [List.mem_singleton] at ht
      subst ht
      exact clean_of_inv acc.reverse [] hinv
    | cons c rest =>
      by_cases hp : MARK.isPrefixOf (c :: rest) = true
      · obtain ⟨u, hu⟩ := List.isPrefixOf_iff_prefix.mp hp
        rw [← hu, splitMarkAux_mark] at ht
        rcases List.mem_cons.mp ht with h1 | h2
        · subst h1
          exact clean_of_inv acc.reverse (c :: rest) hinv
        · have hulen : u.length ≤ n := by
            have := congrArg List.length hu
            simp [MARK] at this
            simp at hlen
            omega
          exact ih u [] hulen (by simp) t h2
      · rw [splitMarkAux_cons c rest acc (by simp [hp])] at ht
        apply ih rest (c :: acc) (by simpa using Nat.le_of_succ_le_succ (by simpa using hlen)) ?_ t ht
        intro i hi
        have hacc : (c :: acc).reverse = acc.reverse ++ [c] := by simp
        have hshape : ((c :: acc).reverse ++ rest) = acc.reverse ++ (c :: rest) := by
          simp
        rw [hshape]
        rw [hacc] at hi
        simp only [List.length_append, List.length_cons, List.length_nil] at hi
        by_cases hlt : i < acc.reverse.length
        · exact hinv i hlt
        · have : i = acc.reverse.length := by omega
          subst this
          rw [List.drop_left]
          exact Bool.eq_false_iff.mpr hp

lemma splitMark_chunks_clean (body : Str) : ∀ t ∈ splitMark body, clean t := by
  intro t ht
  exact splitMarkAux_chunks_clean body.length body [] le_rfl (by simp) t ht

lemma parse_sections_shape (body : Str) :
    ∀ s ∈ parse_sections body, MARK.isPrefixOf s = true ∧ clean (s.drop 4) := by
  intro s hs
  rw [parse_sections] at hs
  have hs' := List.mem_of_mem_drop hs
  obtain ⟨chunk, hchunk, rfl⟩ := List.mem_map.mp hs'
  refine ⟨isPrefixOf_append_self MARK chunk, ?_⟩
  have hdrop : (MARK ++ chunk).drop 4 = chunk := List.drop_left MARK chunk
  rw [hdrop]
  exact splitMark_chunks_clean body chunk hchunk

/-! Sorting facts and the serializer/parser round trip. -/

lemma sortStr_perm (l : List Str) : List.Perm (sortStr l) l :=
  List.perm_insertionSort strLeR l

lemma sortStr_mem {l : List Str} {s : Str} (h : s ∈ sortStr l) : s ∈ l :=
  (sortStr_perm l).mem_iff.mp h

lemma sortStr_mem_of {l : List Str} {s : Str} (h : s ∈ l) : s ∈ sortStr l :=
  (sortStr_perm l).mem_iff.mpr h

lemma sortStr_countP (p : Str → Bool) (l : List Str) :
    (sortStr l).countP p = l.countP p :=
  (sortStr_perm l).countP_eq p

lemma parse_get_metadata_comment (l : List Str)
    (h : ∀ s ∈ l, MARK.isPrefixOf s = true ∧ clean (s.drop 4)) :
    parse_sections (get_metadata_comment l) = sortStr l := by
  have hsort : ∀ s ∈ sortStr l, MARK.isPrefixOf s = true ∧ clean (s.drop 4) :=
    fun s hs => h s (sortStr_mem hs)
  have hrecon : (sortStr l).map (fun s => MARK ++ s.drop 4) = sortStr l := by
    conv_rhs => rw [← List.map_id (sortStr l)]
    apply List.map_congr_left
    intro s hs
    have hthis := eq_append_drop_of_isPrefixOf (hsort s hs).1
    have h4 : MARK.length = 4 := rfl
    rw [h4] at hthis
    exact hthis
  have hchunks : ∀ x ∈ (sortStr l).map (fun s => s.drop 4), clean x := by
    intro x hx
    obtain ⟨s, hs, rfl⟩ := List.mem_map.mp hx
    exact (hsort s hs).2
  have hflat : (sortStr l).flatten =
      (((sortStr l).map (fun s => s.drop 4)).map (fun t => MARK ++ t)).flatten := by
    rw [List.map_map]
    exact congrArg List.flatten hrecon.symm
  have hid : ID_METADATA = MARK ++ ID_METADATA.drop 4 := by decide
  have hpre : clean (ID_METADATA.drop 4 ++ METADATA_HEADER) := by decide
  have hbody : get_metadata_comment l =
      MARK ++ ((ID_METADATA.drop 4 ++ METADATA_HEADER) ++
        (((sortStr l).map (fun s => s.drop 4)).map (fun t => MARK ++ t)).flatten) := by
    rw [get_metadata_comment, ← hflat]
    conv_lhs => rw [hid]
    simp [List.append_assoc]
  rw [parse_sections, splitMark, hbody, splitMarkAux_mark,
    splitMarkAux_join _ hchunks _ [] hpre]
  simp only [List.reverse_nil, List.nil_append, List.map_cons, List.drop_succ_cons,
    List.drop_zero]
  rw [List.map_map]
  exact hrecon

/-! Order facts for the lexicographic comparison, giving sortedness. -/

lemma strLeB_total (a : Str) : ∀ b, strLeB a b = true ∨ strLeB b a = true := by
  induction a with
  | nil => intro b; left; rfl
  | cons x as ih =>
    intro b
    cases b with
    | nil => right; rfl
    | cons y bs =>
      rw [strLeB, strLeB]
      rcases lt_trichotomy x y with h | h | h
      · left; rw [if_pos h]
      · subst h
        rcases ih bs with h2 | h2
        · left; rw [if_neg (lt_irrefl x), if_pos rfl]; exact h2
        · right; rw [if_neg (lt_irrefl x), if_pos rfl]; exact h2
      · right; rw [if_pos h]

lemma strLeB_trans : ∀ a b c, strLeB a b = true → strLeB b c = true →
    strLeB a c = true := by
  intro a
  induction a with
  | nil => intro b c _ _; rfl
  | cons x as ih =>
    intro b c hab hbc
    cases b with
    | nil => simp [strLeB] at hab
    | cons y bs =>
      cases c with
      | nil => simp [strLeB] at hbc
      | cons z cs =>
        rw [strLeB] at hab hbc ⊢
        by_cases hxy : x < y
        · by_cases hyz : y < z
          · rw [if_pos (lt_trans hxy hyz)]
          · rw [if_neg hyz] at hbc
            by_cases hyz2 : y = z
            · subst hyz2; rw [if_pos hxy]
            · rw [if_neg hyz2] at hbc; exact absurd hbc (by simp)
        · rw [if_neg hxy] at hab
          by_cases hxy2 : x = y
          · subst hxy2
            rw [if_pos rfl] at hab
            by_cases hxz : x < z
            · rw [if_pos hxz]
            · rw [if_neg hxz] at hbc ⊢
              by_cases hxz2 : x = z
              · rw [if_pos hxz2] at hbc ⊢
                exact ih bs cs hab hbc
              · rw [if_neg hxz2] at hbc; exact absurd hbc (by simp)
          · rw [if_neg hxy2] at hab; exact absurd hab (by simp)

instance : IsTotal Str strLeR := ⟨fun a b => strLeB_total a b⟩

instance : IsTrans Str strLeR := ⟨fun a b c => strLeB_trans a b c⟩

lemma sortStr_sorted (l : List Str) : List.Pairwise strLeR (sortStr l) :=
  List.sorted_insertionSort strLeR l

/-! Facts about section lookup and the update loop. -/

lemma find_section_eq_some_of_unique (id sstar : Str) (l : List Str)
    (hmem : sstar ∈ l) (hmatch : id.isPrefixOf sstar = true)
    (huniq : ∀ t ∈ l, id.isPrefixOf t = true → t = sstar) :
    find_section id l = some sstar := by
  induction l with
  | nil => simp at hmem
  | cons s rest ih =>
    by_cases hp : id.isPrefixOf s = true
    · have hss : s = sstar := huniq s (by simp) hp
      subst hss
      rw [find_section, if_pos hp]
    · rcases List.mem_cons.mp hmem with h1 | h2
      · exact absurd (h1 ▸ hmatch) hp
      · rw [find_section, if_neg hp]
        exact ih h2 (fun t ht hpt => huniq t (by simp [ht]) hpt)

lemma find_section_none (id : Str) (l : List Str)
    (h : ∀ t ∈ l, ¬ id.isPrefixOf t = true) :
    find_section id l = none := by
  induction l with
  | nil => rfl
  | cons s rest ih =>
    rw [find_section, if_neg (h s (by simp))]
    exact ih (fun t ht => h t (by simp [ht]))

lemma upd_secs_upToDate_of_find (id text : Str) (l : List Str) (s : Str)
    (hf : find_section id l = some s) (hb : section_body s = some text) :
    upd_secs id text l = .upToDate := by
  induction l with
  | nil => simp [find_section] at hf
  | cons x rest ih =>
    by_cases hp : id.isPrefixOf x = true
    · rw [find_section, if_pos hp] at hf
      injection hf with hf
      subst hf
      rw [upd_secs, if_pos hp, if_pos]
      rw [hb]
      simp
    · rw [find_section, if_neg hp] at hf
      rw [upd_secs, if_neg hp, ih hf]

lemma upd_secs_absent_all (id text : Str) (l : List Str)
    (h : upd_secs id text l = .absent) : ∀ x ∈ l, ¬ id.isPrefixOf x = true := by
  induction l with
  | nil => simp
  | cons s rest ih =>
    intro x hx
    by_cases hp : id.isPrefixOf s = true
    · rw [upd_secs, if_pos hp] at h
      by_cases hb : (section_body s == some text) = true
      · rw [if_pos hb] at h; simp at h
      · rw [if_neg hb] at h; simp at h
    · rw [upd_secs, if_neg hp] at h
      cases hrec : upd_secs id text rest with
      | upToDate => rw [hrec] at h; simp at h
      | replaced l2 => rw [hrec] at h; simp at h
      | absent =>
        rcases List.mem_cons.mp hx with h1 | h2
        · subst h1; exact hp
        · exact ih hrec x h2

lemma upd_secs_replaced_decomp (id text : Str) : ∀ (l l2 : List Str),
    upd_secs id text l = .replaced l2 →
    ∃ a s b, l = a ++ s :: b ∧ l2 = a ++ (id ++ text) :: b ∧
      (∀ x ∈ a, ¬ id.isPrefixOf x = true) ∧ id.isPrefixOf s = true ∧
      ¬ section_body s = some text := by
  intro l
  induction l with
  | nil => intro l2 h; simp [upd_secs] at h
  | cons s rest ih =>
    intro l2 h
    by_cases hp : id.isPrefixOf s = true
    · rw [upd_secs, if_pos hp] at h
      by_cases hb : (section_body s == some text) = true
      · rw [if_pos hb] at h; simp at h
      · rw [if_neg hb] at h
        injection h with h
        refine ⟨[], s, rest, by simp, by simp [← h], by simp, hp, ?_⟩
        intro hc
        exact hb (by simp [hc])
    · rw [upd_secs, if_neg hp] at h
      cases hrec : upd_secs id text rest with
      | upToDate => rw [hrec] at h; simp at h
      | absent => rw [hrec] at h; simp at h
      | replaced l3 =>
        rw [hrec] at h
        injection h with h
        obtain ⟨a, sst, b, hl, hl2, ha, hm, hbo⟩ := ih l3 hrec
        refine ⟨s :: a, sst, b, by simp [hl], by simp [← h, hl2], ?_, hm, hbo⟩
        intro x hx
        rcases List.mem_cons.mp hx with h1 | h2
        · subst h1; exact hp
        · exact ha x h2

/-! Facts about metadata-comment lookup and comment-list updates. -/

lemma find_metadata_set (cs : List Str) : ∀ i b, find_metadata cs = some (i, b) →
    ∀ b2, ID_METADATA.isPrefixOf b2 = true →
      find_metadata (cs.set i b2) = some (i, b2) := by
  induction cs with
  | nil => intro i b h b2 _; simp [find_metadata] at h
  | cons x rest ih =>
    intro i b h b2 hb2
    by_cases hp : ID_METADATA.isPrefixOf x = true
    · rw [find_metadata, if_pos hp] at h
      simp only [Option.some.injEq, Prod.mk.injEq] at h
      obtain ⟨rfl, -⟩ := h
      show find_metadata (b2 :: rest) = some (0, b2)
      rw [find_metadata, if_pos hb2]
    · rw [find_metadata, if_neg hp] at h
      cases hrec : find_metadata rest with
      | none => rw [hrec] at h; simp at h
      | some ib =>
        obtain ⟨i2, b3⟩ := ib
        rw [hrec] at h
        simp only [Option.map_some', Option.some.injEq, Prod.mk.injEq] at h
        obtain ⟨rfl, rfl⟩ := h
        show find_metadata (x :: rest.set i2 b2) = some (i2 + 1, b2)
        rw [find_metadata, if_neg hp, ih i2 b3 hrec b2 hb2]
        rfl

lemma find_metadata_append (cs : List Str) : find_metadata cs = none →
    ∀ b2, ID_METADATA.isPrefixOf b2 = true →
      find_metadata (cs ++ [b2]) = some (cs.length, b2) := by
  induction cs with
  | nil => intro _ b2 hb2; simp [find_metadata, hb2]
  | cons x rest ih =>
    intro h b2 hb2
    by_cases hp : ID_METADATA.isPrefixOf x = true
    · rw [find_metadata, if_pos hp] at h; simp at h
    · rw [find_metadata, if_neg hp] at h
      cases hrec : find_metadata rest with
      | some ib => rw [hrec] at h; simp at h
      | none =>
        rw [List.cons_append, find_metadata, if_neg hp, ih hrec b2 hb2]
        simp [List.length_cons]

lemma find_metadata_get (cs : List Str) : ∀ i b, find_metadata cs = some (i, b) →
    cs[i]? = some b ∧ ID_METADATA.isPrefixOf b = true := by
  induction cs with
  | nil => intro i b h; simp [find_metadata] at h
  | cons x rest ih =>
    intro i b h
    by_cases hp : ID_METADATA.isPrefixOf x = true
    · rw [find_metadata, if_pos hp] at h
      simp only [Option.some.injEq, Prod.mk.injEq] at h
      obtain ⟨rfl, rfl⟩ := h
      exact ⟨by simp, hp⟩
    · rw [find_metadata, if_neg hp] at h
      cases hrec : find_metadata rest with
      | none => rw [hrec] at h; simp at h
      | some ib =>
        obtain ⟨i2, b3⟩ := ib
        rw [hrec] at h
        simp only [Option.map_some', Option.some.injEq, Prod.mk.injEq] at h
        obtain ⟨rfl, rfl⟩ := h
        have := ih i2 b3 hrec
        exact ⟨by simpa using this.1, this.2⟩

lemma find_metadata_none_all (cs : List Str) (h : find_metadata cs = none) :
    ∀ b ∈ cs, ¬ ID_METADATA.isPrefixOf b = true := by
  induction cs with
  | nil => simp
  | cons x rest ih =>
    intro b hb
    by_cases hp : ID_METADATA.isPrefixOf x = true
    · rw [find_metadata, if_pos hp] at h; simp at h
    · rw [find_metadata, if_neg hp] at h
      cases hrec : find_metadata rest with
      | some ib => rw [hrec] at h; simp at h
      | none =>
        rcases List.mem_cons.mp hb with h1 | h2
        · subst h1; exact hp
        · exact ih hrec b h2

lemma countP_set_eq (p : Str → Bool) : ∀ (cs : List Str) i b b2,
    cs[i]? = some b → p b = p b2 →
    (cs.set i b2).countP p = cs.countP p := by
  intro cs
  induction cs with
  | nil => intro i b b2 h _; simp at h
  | cons x rest ih =>
    intro i b b2 h hp
    cases i with
    | zero =>
      simp only [List.getElem?_cons_zero, Option.some.injEq] at h
      subst h
      simp [List.set, List.countP_cons, hp]
    | succ i =>
      simp only [List.getElem?_cons_succ] at h
      simp [List.set, List.countP_cons, ih i b b2 h hp]

/-! The body of a freshly written section. -/

lemma afterArrow_skip : ∀ (u : Str),
    (∀ i, i < u.length → ARROW.isPrefixOf ((u ++ ARROW).drop i) = false) →
    ∀ v, afterArrow (u ++ (ARROW ++ v)) = some v := by
  intro u
  induction u with
  | nil => intro _ v; exact afterArrow_arrow v
  | cons c u' ih =>
    intro hinv v
    have h0 : ARROW.isPrefixOf ((c :: u') ++ ARROW) = false := by
      simpa using hinv 0 (by simp)
    have hfull : ARROW.isPrefixOf ((c :: u') ++ (ARROW ++ v)) = false := by
      have hlen : ARROW.length ≤ ((c :: u') ++ ARROW).length := by simp [ARROW]
      calc ARROW.isPrefixOf ((c :: u') ++ (ARROW ++ v))
          = ARROW.isPrefixOf (((c :: u') ++ ARROW) ++ v) := by rw [List.append_assoc]
        _ = ARROW.isPrefixOf ((c :: u') ++ ARROW) := prefix_stable _ _ _ hlen
        _ = false := h0
    rw [List.cons_append, afterArrow_cons c _ (by
      simpa [List.cons_append] using (Bool.eq_false_iff.mp hfull))]
    apply ih ?_ v
    intro i hi
    simpa using hinv (i + 1) (by simpa using Nat.succ_lt_succ hi)

lemma section_body_conflicts (text : Str) :
    section_body (ID_SEC_CONFLICTS ++ text) = some text := by
  have hsplit : ID_SEC_CONFLICTS = (ID_SEC_CONFLICTS.take 36) ++ ARROW := by decide
  rw [section_body]
  conv_lhs => rw [hsplit]
  rw [List.append_assoc]
  apply afterArrow_skip
  decide

lemma section_body_coverage (text : Str) :
    section_body (ID_SEC_COVERAGE ++ text) = some text := by
  have hsplit : ID_SEC_COVERAGE = (ID_SEC_COVERAGE.take 36) ++ ARROW := by decide
  rw [section_body]
  conv_lhs => rw [hsplit]
  rw [List.append_assoc]
  apply afterArrow_skip
  decide

lemma section_body_marker {id : Str}
    (hid : id = ID_SEC_CONFLICTS ∨ id = ID_SEC_COVERAGE) (text : Str) :
    section_body (id ++ text) = some text := by
  rcases hid with rfl | rfl
  · exact section_body_conflicts text
  · exact section_body_coverage text

/-! A freshly written section is well formed when its text has no marker. -/

lemma clean_marker_section {id : Str}
    (hid : id = ID_SEC_CONFLICTS ∨ id = ID_SEC_COVERAGE)
    {text : Str} (htext : clean text) : clean ((id ++ text).drop 4) := by
  rcases hid with rfl | rfl
  · have hdrop : (ID_SEC_CONFLICTS ++ text).drop 4 = ID_SEC_CONFLICTS.drop 4 ++ text := rfl
    rw [hdrop]
    exact clean_append_no_lt (by decide) htext
  · have hdrop : (ID_SEC_COVERAGE ++ text).drop 4 = ID_SEC_COVERAGE.drop 4 ++ text := rfl
    rw [hdrop]
    exact clean_append_no_lt (by decide) htext

lemma marker_prefix_new (id text : Str) : id.isPrefixOf (id ++ text) = true :=
  isPrefixOf_append_self id text

lemma marker_prefix_excl {id other s : Str}
    (hid : id = ID_SEC_CONFLICTS ∨ id = ID_SEC_COVERAGE)
    (hother : other = ID_SEC_CONFLICTS ∨ other = ID_SEC_COVERAGE)
    (hne : id ≠ other) (hs : id.isPrefixOf s = true) :
    other.isPrefixOf s = false := by
  cases hocc : other.isPrefixOf s with
  | false => rfl
  | true =>
    exfalso
    obtain ⟨t, rfl⟩ := List.isPrefixOf_iff_prefix.mp hs
    have hlen : other.length = id.length := by
      rcases hid with rfl | rfl <;> rcases hother with rfl | rfl <;> rfl
    have : other = id := prefix_of_prefix_eq t hlen hocc
    exact hne this.symm

/-! State after applying the writes of `update_metadata_comment`. -/

lemma applyWrites_nil (cs : List Str) : applyWrites cs [] = cs := rfl

lemma applyWrites_edit (cs : List Str) (i : Nat) (b : Str) :
    applyWrites cs [.edit i b] = cs.set i b := rfl

lemma applyWrites_create (cs : List Str) (b : Str) :
    applyWrites cs [.create b] = cs ++ [b] := rfl

lemma metadata_prefix_comment (l : List Str) :
    ID_METADATA.isPrefixOf (get_metadata_comment l) = true := by
  rw [get_metadata_comment, List.append_assoc]
  exact isPrefixOf_append_self _ _

lemma get_metadata_sections_inv (cs : List Str) (i : Nat) (secs : List Str)
    (h : get_metadata_sections cs = some (i, secs)) :
    ∃ b0, find_metadata cs = some (i, b0) ∧ secs = parse_sections b0 := by
  rw [get_metadata_sections] at h
  cases hf : find_metadata cs with
  | none => rw [hf] at h; simp at h
  | some ib =>
    obtain ⟨i2, b0⟩ := ib
    rw [hf] at h
    simp only [Option.map_some', Option.some.injEq, Prod.mk.injEq] at h
    obtain ⟨rfl, rfl⟩ := h
    exact ⟨b0, rfl, rfl⟩

lemma new_section_wf {id : Str} (hid : id = ID_SEC_CONFLICTS ∨ id = ID_SEC_COVERAGE)
    {text : Str} (htext : clean text) :
    MARK.isPrefixOf (id ++ text) = true ∧ clean ((id ++ text).drop 4) := by
  constructor
  · apply isPrefixOf_mono
    rcases hid with rfl | rfl <;> decide
  · exact clean_marker_section hid htext

lemma sortStr_singleton (x : Str) : sortStr [x] = [x] := rfl

lemma update_state_create (cs : List Str) (id text : Str)
    (hnone : get_metadata_sections cs = none)
    (hid : id = ID_SEC_CONFLICTS ∨ id = ID_SEC_COVERAGE) (htext : clean text) :
    update_metadata_comment cs id text = [.create (get_metadata_comment [id ++ text])]
      ∧ get_metadata_sections (applyWrites cs (update_metadata_comment cs id text)) =
          some (cs.length, [id ++ text]) := by
  have hfn : find_metadata cs = none := by
    rw [get_metadata_sections] at hnone
    cases hf : find_metadata cs with
    | none => rfl
    | some ib => rw [hf] at hnone; simp at hnone
  have hupd : update_metadata_comment cs id text =
      [.create (get_metadata_comment [id ++ text])] := by
    rw [update_metadata_comment, hnone]
  refine ⟨hupd, ?_⟩
  rw [hupd, applyWrites_create]
  rw [get_metadata_sections,
    find_metadata_append cs hfn _ (metadata_prefix_comment [id ++ text])]
  have hwf : ∀ s ∈ [id ++ text], MARK.isPrefixOf s = true ∧ clean (s.drop 4) := by
    intro s hs
    rw [List.mem_singleton] at hs
    subst hs
    exact new_section_wf hid htext
  have := parse_get_metadata_comment [id ++ text] hwf
  rw [sortStr_singleton] at this
  simp [this]

lemma update_state_upToDate (cs : List Str) (id text : Str) (i : Nat) (secs : List Str)
    (hsome : get_metadata_sections cs = some (i, secs))
    (hupd : upd_secs id text secs = .upToDate) :
    update_metadata_comment cs id text = [] := by
  simp only [update_metadata_comment, hsome, hupd]

lemma secs2_wf_replaced (b0 : Str) (id text : Str) (a b : List Str)
    (hid : id = ID_SEC_CONFLICTS ∨ id = ID_SEC_COVERAGE) (htext : clean text)
    (hsub : ∀ x, x ∈ a ∨ x ∈ b → x ∈ parse_sections b0) :
    ∀ x ∈ a ++ (id ++ text) :: b, MARK.isPrefixOf x = true ∧ clean (x.drop 4) := by
  intro x hx
  rcases List.mem_append.mp hx with hxa | hxc
  · exact parse_sections_shape b0 x (hsub x (Or.inl hxa))
  · rcases List.mem_cons.mp hxc with h1 | h2
    · subst h1; exact new_section_wf hid htext
    · exact parse_sections_shape b0 x (hsub x (Or.inr h2))

lemma update_state_replaced (cs : List Str) (id text : Str) (i : Nat)
    (secs secs2 : List Str)
    (hsome : get_metadata_sections cs = some (i, secs))
    (hupd : upd_secs id text secs = .replaced secs2)
    (hwf : ∀ x ∈ secs2, MARK.isPrefixOf x = true ∧ clean (x.drop 4)) :
    update_metadata_comment cs id text = [.edit i (get_metadata_comment secs2)]
      ∧ get_metadata_sections (applyWrites cs (update_metadata_comment cs id text)) =
          some (i, sortStr secs2) := by
  have hupdc : update_metadata_comment cs id text =
      [.edit i (get_metadata_comment secs2)] := by
    simp only [update_metadata_comment, hsome, hupd]
  obtain ⟨b0, hfm, hsecs⟩ := get_metadata_sections_inv cs i secs hsome
  refine ⟨hupdc, ?_⟩
  rw [hupdc, applyWrites_edit]
  rw [get_metadata_sections,
    find_metadata_set cs i b0 hfm _ (metadata_prefix_comment secs2)]
  have := parse_get_metadata_comment secs2 hwf
  simp [this]

lemma update_state_absent (cs : List Str) (id text : Str) (i : Nat)
    (secs : List Str)
    (hsome : get_metadata_sections cs = some (i, secs))
    (hupd : upd_secs id text secs = .absent)
    (hid : id = ID_SEC_CONFLICTS ∨ id = ID_SEC_COVERAGE) (htext : clean text) :
    update_metadata_comment cs id text =
        [.edit i (get_metadata_comment (secs ++ [id ++ text]))]
      ∧ get_metadata_sections (applyWrites cs (update_metadata_comment cs id text)) =
          some (i, sortStr (secs ++ [id ++ text])) := by
  have hupdc : update_metadata_comment cs id text =
      [.edit i (get_metadata_comment (secs ++ [id ++ text]))] := by
    simp only [update_metadata_comment, hsome, hupd]
  obtain ⟨b0, hfm, hsecs⟩ := get_metadata_sections_inv cs i secs hsome
  refine ⟨hupdc, ?_⟩
  rw [hupdc, applyWrites_edit]
  rw [get_metadata_sections,
    find_metadata_set cs i b0 hfm _ (metadata_prefix_comment (secs ++ [id ++ text]))]
  have hwf : ∀ x ∈ secs ++ [id ++ text], MARK.isPrefixOf x = true ∧ clean (x.drop 4) := by
    intro x hx
    rcases List.mem_append.mp hx with hxa | hxc
    · exact parse_sections_shape b0 x (hsecs ▸ hxa)
    · rw [List.mem_singleton] at hxc
      subst hxc
      exact new_section_wf hid htext
  have := parse_get_metadata_comment (secs ++ [id ++ text]) hwf
  simp [this]

/-! Uniqueness plumbing. -/

lemma find_section_mem (id : Str) : ∀ (l : List Str) (s : Str),
    find_section id l = some s → s ∈ l ∧ id.isPrefixOf s = true := by
  intro l
  induction l with
  | nil => intro s h; simp [find_section] at h
  | cons x rest ih =>
    intro s h
    by_cases hp : id.isPrefixOf x = true
    · rw [find_section, if_pos hp] at h
      injection h with h
      subst h
      exact ⟨by simp, hp⟩
    · rw [find_section, if_neg hp] at h
      have := ih s h
      exact ⟨by simp [this.1], this.2⟩

lemma find_section_none_all (id : Str) : ∀ (l : List Str),
    find_section id l = none → ∀ t ∈ l, ¬ id.isPrefixOf t = true := by
  intro l
  induction l with
  | nil => simp
  | cons x rest ih =>
    intro h t ht
    by_cases hp : id.isPrefixOf x = true
    · rw [find_section, if_pos hp] at h; simp at h
    · rw [find_section, if_neg hp] at h
      rcases List.mem_cons.mp ht with h1 | h2
      · subst h1; exact hp
      · exact ih h t h2

lemma len_le_one_eq {α : Type} {l : List α} (h : l.length ≤ 1) {a b : α}
    (ha : a ∈ l) (hb : b ∈ l) : a = b := by
  match l with
  | [] => simp at ha
  | [x] =>
    rw [List.mem_singleton] at ha hb
    rw [ha, hb]
  | x :: y :: rest => simp at h

lemma countP_le_one_unique (P : Str → Bool) (l : List Str) (h : l.countP P ≤ 1)
    {s t : Str} (hs : s ∈ l) (hps : P s = true) (ht : t ∈ l) (hpt : P t = true) :
    t = s := by
  have hlen : (l.filter P).length ≤ 1 := by
    rw [← List.countP_eq_length_filter]
    exact h
  exact len_le_one_eq hlen (List.mem_filter.mpr ⟨ht, hpt⟩) (List.mem_filter.mpr ⟨hs, hps⟩)

lemma upd_secs_upToDate_inv (id text : Str) : ∀ (l : List Str),
    upd_secs id text l = .upToDate →
    ∃ s, find_section id l = some s ∧ section_body s = some text := by
  intro l
  induction l with
  | nil => intro h; simp [upd_secs] at h
  | cons x rest ih =>
    intro h
    by_cases hp : id.isPrefixOf x = true
    · rw [upd_secs, if_pos hp] at h
      by_cases hb : (section_body x == some text) = true
      · refine ⟨x, ?_, ?_⟩
        · rw [find_section, if_pos hp]
        · exact eq_of_beq hb
      · rw [if_neg hb] at h; simp at h
    · rw [upd_secs, if_neg hp] at h
      cases hrec : upd_secs id text rest with
      | upToDate =>
        obtain ⟨s, hf, hbo⟩ := ih hrec
        exact ⟨s, by rw [find_section, if_neg hp]; exact hf, hbo⟩
      | replaced l2 => rw [hrec] at h; simp at h
      | absent => rw [hrec] at h; simp at h

/-! The post-state of one `update_metadata_comment` call: the target section
is present (first match for its key) with exactly the written body. -/

lemma update_post (cs : List Str) (id text : Str)
    (hid : id = ID_SEC_CONFLICTS ∨ id = ID_SEC_COVERAGE) (htext : clean text)
    (hcount : ∀ i secs, get_metadata_sections cs = some (i, secs) →
        secs.countP (fun t => id.isPrefixOf t) ≤ 1) :
    ∃ j secs2 s,
      get_metadata_sections (applyWrites cs (update_metadata_comment cs id text)) =
          some (j, secs2)
        ∧ find_section id secs2 = some s ∧ section_body s = some text := by
  cases hmeta : get_metadata_sections cs with
  | none =>
    obtain ⟨-, hpost⟩ := update_state_create cs id text hmeta hid htext
    refine ⟨cs.length, [id ++ text], id ++ text, hpost, ?_, section_body_marker hid text⟩
    rw [find_section, if_pos (marker_prefix_new id text)]
  | some isecs =>
    obtain ⟨i, secs⟩ := isecs
    have hc := hcount i secs hmeta
    cases hupd : upd_secs id text secs with
    | upToDate =>
      have hnil := update_state_upToDate cs id text i secs hmeta hupd
      rw [hnil, applyWrites_nil]
      obtain ⟨s, hf, hbo⟩ := upd_secs_upToDate_inv id text secs hupd
      exact ⟨i, secs, s, hmeta, hf, hbo⟩
    | replaced secs2 =>
      obtain ⟨a, s, b, hl, hl2, ha, hm, -⟩ := upd_secs_replaced_decomp id text secs secs2 hupd
      obtain ⟨b0, hfm, hsecs⟩ := get_metadata_sections_inv cs i secs hmeta
      have hwf : ∀ x ∈ secs2, MARK.isPrefixOf x = true ∧ clean (x.drop 4) := by
        rw [hl2]
        apply secs2_wf_replaced b0 id text a b hid htext
        intro x hx
        rw [← hsecs, hl]
        rcases hx with hxa | hxb
        · exact List.mem_append.mpr (Or.inl hxa)
        · exact List.mem_append.mpr (Or.inr (by simp [hxb]))
      obtain ⟨-, hpost⟩ := update_state_replaced cs id text i secs secs2 hmeta hupd hwf
      have hbzero : ∀ x ∈ b, ¬ id.isPrefixOf x = true := by
        have hcount2 : List.countP (fun t => id.isPrefixOf t) b = 0 := by
          rw [hl, List.countP_append, List.countP_cons_of_pos _ _ hm] at hc
          have hconv : List.countP (List.isPrefixOf id) b =
              List.countP (fun t => List.isPrefixOf id t) b := rfl
          rw [hconv] at hc
          omega
        intro x hx hpx
        have := List.countP_eq_zero.mp hcount2 x hx
        exact this hpx
      have hmem2 : (id ++ text) ∈ sortStr secs2 := by
        apply sortStr_mem_of
        rw [hl2]
        exact List.mem_append.mpr (Or.inr (by simp))
      have huniq : ∀ t ∈ sortStr secs2, id.isPrefixOf t = true → t = id ++ text := by
        intro t ht hpt
        have ht2 : t ∈ secs2 := sortStr_mem ht
        rw [hl2] at ht2
        rcases List.mem_append.mp ht2 with hta | htc
        · exact absurd hpt (ha t hta)
        · rcases List.mem_cons.mp htc with h1 | h2
          · exact h1
          · exact absurd hpt (hbzero t h2)
      refine ⟨i, sortStr secs2, id ++ text, hpost, ?_, section_body_marker hid text⟩
      exact find_section_eq_some_of_unique id (id ++ text) (sortStr secs2) hmem2
        (marker_prefix_new id text) huniq
    | absent =>
      obtain ⟨-, hpost⟩ := update_state_absent cs id text i secs hmeta hupd hid htext
      have hall := upd_secs_absent_all id text secs hupd
      have hmem2 : (id ++ text) ∈ sortStr (secs ++ [id ++ text]) := by
        apply sortStr_mem_of
        exact List.mem_append.mpr (Or.inr (by simp))
      have huniq : ∀ t ∈ sortStr (secs ++ [id ++ text]),
          id.isPrefixOf t = true → t = id ++ text := by
        intro t ht hpt
        have ht2 := sortStr_mem ht
        rcases List.mem_append.mp ht2 with hta | htc
        · exact absurd hpt (hall t hta)
        · rw [List.mem_singleton] at htc
          exact htc
      refine ⟨i, sortStr (secs ++ [id ++ text]), id ++ text, hpost, ?_,
        section_body_marker hid text⟩
      exact find_section_eq_some_of_unique id (id ++ text) _ hmem2
        (marker_prefix_new id text) huniq

/-! Claims C1 and C2. -/

lemma get_metadata_sections_none_inv (cs : List Str)
    (h : get_metadata_sections cs = none) : find_metadata cs = none := by
  rw [get_metadata_sections] at h
  cases hf : find_metadata cs with
  | none => rfl
  | some ib => rw [hf] at h; simp at h

/-- C1 (amended): if the first conflicts section of the metadata comment has
a body byte-identical to the newly computed text, `update_metadata_comment`
performs no remote write (neither edit nor creation); and — provided the
computed text contains no embedded `<!--` marker and the comment holds at
most one conflicts section — running the synchronizer a second time with the
same text after applying the first run's writes performs zero remote
writes. -/
theorem update_metadata_comment_idempotent :
    (∀ (cs : List Str) (i : Nat) (secs : List Str) (s text : Str),
        get_metadata_sections cs = some (i, secs) →
        find_section ID_SEC_CONFLICTS secs = some s →
        section_body s = some text →
        update_metadata_comment cs ID_SEC_CONFLICTS text = [])
    ∧ (∀ (cs : List Str) (text : Str), clean text →
        (∀ i secs, get_metadata_sections cs = some (i, secs) →
          secs.countP (fun t => ID_SEC_CONFLICTS.isPrefixOf t) ≤ 1) →
        update_metadata_comment
          (applyWrites cs (update_metadata_comment cs ID_SEC_CONFLICTS text))
          ID_SEC_CONFLICTS text = []) := by
  constructor
  · intro cs i secs s text hsome hf hb
    exact update_state_upToDate cs _ text i secs hsome
      (upd_secs_upToDate_of_find _ text secs s hf hb)
  · intro cs text htext hcount
    obtain ⟨j, secs2, s, h1, h2, h3⟩ :=
      update_post cs ID_SEC_CONFLICTS text (Or.inl rfl) htext hcount
    exact update_state_upToDate _ _ text j secs2 h1
      (upd_secs_upToDate_of_find _ text secs2 s h2 h3)

/-- C1 counterexample: with a computed section text that embeds a `<!--`
marker, a second synchronizer run with the same text performs a remote write
again, so the claimed unconditional "second run issues zero remote writes"
fails as stated. -/
theorem update_metadata_comment_second_run_writes :
    update_metadata_comment cs_after_first_run ID_SEC_CONFLICTS dirtyText ≠ [] := by
  decide

/-- Witness for C1 at a concrete input: a marker-free text written once is
found up to date on the second run. -/
theorem update_metadata_comment_idempotent_witness :
    update_metadata_comment
        (applyWrites [] (update_metadata_comment [] ID_SEC_CONFLICTS NO_CONFLICTS_TEXT))
        ID_SEC_CONFLICTS NO_CONFLICTS_TEXT = [] := by
  apply (update_metadata_comment_idempotent).2 [] NO_CONFLICTS_TEXT (by decide)
  intro i secs h
  simp [get_metadata_sections, find_metadata] at h

/-- C2 (amended): with an empty conflict list, nothing is written when the
pull has no conflicts section or when the section's body is empty (the code
tests string truthiness); when a conflicts section with a nonempty body
exists, the write goes through `update_metadata_comment` with the
"no conflicts" text, every performed write is an in-place edit — the
Annotation comment is never deleted or re-created — and, when the conflicts
section is unique, the post-state conflicts body is exactly the
"no conflicts" text. -/
theorem update_comment_empty (cs : List Str) :
    ((get_section_text cs ID_SEC_CONFLICTS = none ∨
        get_section_text cs ID_SEC_CONFLICTS = some []) →
      update_comment cs [] = [])
    ∧ (∀ b, get_section_text cs ID_SEC_CONFLICTS = some b → b ≠ [] →
        update_comment cs [] =
            update_metadata_comment cs ID_SEC_CONFLICTS NO_CONFLICTS_TEXT
          ∧ (∀ w ∈ update_comment cs [], ∃ j bo, w = Write.edit j bo)
          ∧ ((∀ i secs, get_metadata_sections cs = some (i, secs) →
                secs.countP (fun t => ID_SEC_CONFLICTS.isPrefixOf t) ≤ 1) →
              get_section_text (applyWrites cs (update_comment cs []))
                ID_SEC_CONFLICTS = some NO_CONFLICTS_TEXT)) := by
  constructor
  · intro h
    rcases h with h | h
    · simp [update_comment, h]
    · simp [update_comment, h]
  · intro b hb hbne
    have hbcons : ∃ c bs, b = c :: bs := by
      cases b with
      | nil => exact absurd rfl hbne
      | cons c bs => exact ⟨c, bs, rfl⟩
    obtain ⟨c, bs, rfl⟩ := hbcons
    have heq : update_comment cs [] =
        update_metadata_comment cs ID_SEC_CONFLICTS NO_CONFLICTS_TEXT := by
      simp only [update_comment, hb]
    have hmeta : ∃ i secs, get_metadata_sections cs = some (i, secs) := by
      rw [get_section_text] at hb
      cases hm : get_metadata_sections cs with
      | none => rw [hm] at hb; simp at hb
      | some isecs =>
        obtain ⟨i0, s0⟩ := isecs
        exact ⟨i0, s0, rfl⟩
    obtain ⟨i, secs, hm⟩ := hmeta
    refine ⟨heq, ?_, ?_⟩
    · intro w hw
      rw [heq] at hw
      cases hupd : upd_secs ID_SEC_CONFLICTS NO_CONFLICTS_TEXT secs with
      | upToDate =>
        rw [update_state_upToDate cs _ _ i secs hm hupd] at hw
        simp at hw
      | replaced secs2 =>
        rw [update_metadata_comment, hm] at hw
        simp only [hupd] at hw
        rw [List.mem_singleton] at hw
        exact ⟨i, get_metadata_comment secs2, hw⟩
      | absent =>
        rw [update_metadata_comment, hm] at hw
        simp only [hupd] at hw
        rw [List.mem_singleton] at hw
        exact ⟨i, get_metadata_comment (secs ++ [ID_SEC_CONFLICTS ++ NO_CONFLICTS_TEXT]), hw⟩
    · intro hcount
      rw [heq]
      obtain ⟨j, secs2, s, h1, h2, h3⟩ :=
        update_post cs ID_SEC_CONFLICTS NO_CONFLICTS_TEXT (Or.inl rfl) (by decide) hcount
      rw [get_section_text, h1]
      simp only [h2]
      exact h3

/-- C2 counterexample: a conflicts section whose body is the empty string is
treated as absent by the truthiness test, so an empty conflict result writes
nothing even though the section exists. -/
theorem update_comment_empty_body_cex :
    (∃ s, find_section ID_SEC_CONFLICTS
        ((get_metadata_sections cs_empty_conflicts).getD (0, [])).2 = some s)
    ∧ update_comment cs_empty_conflicts [] = [] := by
  refine ⟨⟨ID_SEC_CONFLICTS, by decide⟩, by decide⟩

/-- Witness for C2 at a concrete input: a nonempty conflicts section is
flipped to the "no conflicts" body. -/
theorem update_comment_empty_witness :
    get_section_text (applyWrites cs_old (update_comment cs_old []))
      ID_SEC_CONFLICTS = some NO_CONFLICTS_TEXT := by
  have h := (update_comment_empty cs_old).2 (("old").data) (by decide) (by decide)
  apply h.2.2
  intro i secs hh
  have hconc : get_metadata_sections cs_old =
      some (0, [ID_SEC_CONFLICTS ++ ("old").data]) := by decide
  rw [hconc] at hh
  simp only [Option.some.injEq, Prod.mk.injEq] at hh
  obtain ⟨-, rfl⟩ := hh
  decide

/-! Claim C7: section isolation. -/

lemma find_section_transfer (other : Str) (secs secs2 : List Str)
    (hcount : secs.countP (fun t => other.isPrefixOf t) ≤ 1)
    (hfwd : ∀ t ∈ secs2, other.isPrefixOf t = true → t ∈ secs)
    (hbwd : ∀ t ∈ secs, other.isPrefixOf t = true → t ∈ secs2) :
    find_section other secs2 = find_section other secs := by
  cases hf : find_section other secs with
  | none =>
    apply find_section_none
    intro t ht hpt
    exact (find_section_none_all other secs hf) t (hfwd t ht hpt) hpt
  | some sstar =>
    obtain ⟨hmem, hP⟩ := find_section_mem other secs sstar hf
    apply find_section_eq_some_of_unique other sstar secs2 (hbwd sstar hmem hP) hP
    intro t ht hpt
    exact countP_le_one_unique _ secs hcount hmem hP (hfwd t ht hpt) hpt

/-- C7 (amended): provided the new section text contains no embedded `<!--`
marker and the comment holds at most one section for the other key, updating
one section key via `update_metadata_comment` leaves the body of the other
key's section unchanged — in particular, updating the conflicts section never
alters the coverage section's body. -/
theorem section_isolation (cs : List Str) (id other text : Str)
    (hid : id = ID_SEC_CONFLICTS ∨ id = ID_SEC_COVERAGE)
    (hother : other = ID_SEC_CONFLICTS ∨ other = ID_SEC_COVERAGE)
    (hne : id ≠ other) (htext : clean text)
    (hcount : ∀ i secs, get_metadata_sections cs = some (i, secs) →
        secs.countP (fun t => other.isPrefixOf t) ≤ 1) :
    get_section_text (applyWrites cs (update_metadata_comment cs id text)) other =
      get_section_text cs other := by
  have hPnew : other.isPrefixOf (id ++ text) = false :=
    marker_prefix_excl hid hother hne (marker_prefix_new id text)
  cases hmeta : get_metadata_sections cs with
  | none =>
    obtain ⟨-, hpost⟩ := update_state_create cs id text hmeta hid htext
    rw [get_section_text, hpost]
    have hfind : find_section other [id ++ text] = none := by
      rw [find_section, if_neg (by simp [hPnew]), find_section]
    simp only [hfind]
    rw [get_section_text, hmeta]
  | some isecs =>
    obtain ⟨i, secs⟩ := isecs
    have hc := hcount i secs hmeta
    cases hupd : upd_secs id text secs with
    | upToDate =>
      rw [update_state_upToDate cs id text i secs hmeta hupd, applyWrites_nil]
    | replaced secs2 =>
      obtain ⟨a, s, b, hl, hl2, ha, hm, -⟩ :=
        upd_secs_replaced_decomp id text secs secs2 hupd
      obtain ⟨b0, hfm, hsecs⟩ := get_metadata_sections_inv cs i secs hmeta
      have hPs : other.isPrefixOf s = false :=
        marker_prefix_excl hid hother hne hm
      have hwf : ∀ x ∈ secs2, MARK.isPrefixOf x = true ∧ clean (x.drop 4) := by
        rw [hl2]
        apply secs2_wf_replaced b0 id text a b hid htext
        intro x hx
        rw [← hsecs, hl]
        rcases hx with hxa | hxb
        · exact List.mem_append.mpr (Or.inl hxa)
        · exact List.mem_append.mpr (Or.inr (by simp [hxb]))
      obtain ⟨-, hpost⟩ := update_state_replaced cs id text i secs secs2 hmeta hupd hwf
      rw [get_section_text, hpost, get_section_text, hmeta]
      have htrans : find_section other (sortStr secs2) = find_section other secs := by
        apply find_section_transfer other secs (sortStr secs2) hc
        · intro t ht hpt
          have ht2 : t ∈ secs2 := sortStr_mem ht
          rw [hl2] at ht2
          rw [hl]
          rcases List.mem_append.mp ht2 with hta | htc
          · exact List.mem_append.mpr (Or.inl hta)
          · rcases List.mem_cons.mp htc with h1 | h2
            · rw [h1] at hpt
              rw [hPnew] at hpt
              cases hpt
            · exact List.mem_append.mpr (Or.inr (by simp [h2]))
        · intro t ht hpt
          apply sortStr_mem_of
          rw [hl2]
          rw [hl] at ht
          rcases List.mem_append.mp ht with hta | htc
          · exact List.mem_append.mpr (Or.inl hta)
          · rcases List.mem_cons.mp htc with h1 | h2
            · rw [h1] at hpt
              rw [hPs] at hpt
              cases hpt
            · exact List.mem_append.mpr (Or.inr (by simp [h2]))
      simp only [htrans]
    | absent =>
      obtain ⟨-, hpost⟩ := update_state_absent cs id text i secs hmeta hupd hid htext
      rw [get_section_text, hpost, get_section_text, hmeta]
      have htrans : find_section other (sortStr (secs ++ [id ++ text])) =
          find_section other secs := by
        apply find_section_transfer other secs _ hc
        · intro t ht hpt
          have ht2 := sortStr_mem ht
          rcases List.mem_append.mp ht2 with hta | htc
          · exact hta
          · rw [List.mem_singleton] at htc
            rw [htc] at hpt
            rw [hPnew] at hpt
            cases hpt
        · intro t ht _
          exact sortStr_mem_of (List.mem_append.mpr (Or.inl ht))
      simp only [htrans]

/-- C7 counterexample: a conflicts-section text that embeds the coverage
marker changes the body that `get_section_text` reports for the coverage
section, so the claim without the marker-free proviso fails as stated. -/
theorem section_isolation_cex :
    get_section_text cs_cov ID_SEC_COVERAGE = some (("X").data)
      ∧ get_section_text
          (applyWrites cs_cov (update_metadata_comment cs_cov ID_SEC_CONFLICTS evilText))
          ID_SEC_COVERAGE ≠ some (("X").data) := by
  exact ⟨by decide, by decide⟩

/-- Witness for C7 at a concrete input: rewriting the conflicts section with
a marker-free text leaves the coverage body unchanged. -/
theorem section_isolation_witness :
    get_section_text
        (applyWrites cs_cov (update_metadata_comment cs_cov ID_SEC_CONFLICTS NO_CONFLICTS_TEXT))
        ID_SEC_COVERAGE = get_section_text cs_cov ID_SEC_COVERAGE := by
  apply section_isolation cs_cov ID_SEC_CONFLICTS ID_SEC_COVERAGE NO_CONFLICTS_TEXT
    (Or.inl rfl) (Or.inr rfl) (by decide) (by decide)
  intro i secs hh
  have hconc : get_metadata_sections cs_cov =
      some (0, [ID_SEC_CONFLICTS ++ ("old").data, ID_SEC_COVERAGE ++ ("X").data]) := by
    decide
  rw [hconc] at hh
  simp only [Option.some.injEq, Prod.mk.injEq] at hh
  obtain ⟨-, rfl⟩ := hh
  decide

/-! Claim C8: the Annotation invariant. -/

lemma secs_wf_of_meta (cs : List Str) (i : Nat) (secs : List Str)
    (hmeta : get_metadata_sections cs = some (i, secs)) :
    ∀ x ∈ secs, MARK.isPrefixOf x = true ∧ clean (x.drop 4) := by
  obtain ⟨b0, -, hsecs⟩ := get_metadata_sections_inv cs i secs hmeta
  rw [hsecs]
  exact parse_sections_shape b0

lemma secs2_wf_of_replaced (cs : List Str) (id text : Str) (i : Nat)
    (secs secs2 : List Str)
    (hid : id = ID_SEC_CONFLICTS ∨ id = ID_SEC_COVERAGE) (htext : clean text)
    (hmeta : get_metadata_sections cs = some (i, secs))
    (hupd : upd_secs id text secs = .replaced secs2) :
    ∀ x ∈ secs2, MARK.isPrefixOf x = true ∧ clean (x.drop 4) := by
  obtain ⟨a, s, b, hl, hl2, -, -, -⟩ := upd_secs_replaced_decomp id text secs secs2 hupd
  have hwfs := secs_wf_of_meta cs i secs hmeta
  intro x hx
  rw [hl2] at hx
  rcases List.mem_append.mp hx with hxa | hxc
  · exact hwfs x (by rw [hl]; exact List.mem_append.mpr (Or.inl hxa))
  · rcases List.mem_cons.mp hxc with h1 | h2
    · subst h1; exact new_section_wf hid htext
    · exact hwfs x (by rw [hl]; exact List.mem_append.mpr (Or.inr (by simp [h2])))

/-- C8: every comment body written by `update_metadata_comment` serializes
its sections in sorted order with at most one section per marker key (given
the incoming comment satisfies the per-key uniqueness invariant and the text
is marker-free); when a metadata comment exists, the function writes nothing
or edits that comment in place; it creates a new comment only when no comment
starting with the metadata marker is present; and the number of metadata
comments stays at most one. -/
theorem annotation_invariant (cs : List Str) (id text : Str)
    (hid : id = ID_SEC_CONFLICTS ∨ id = ID_SEC_COVERAGE)
    (htext : clean text)
    (hdup : ∀ i secs, get_metadata_sections cs = some (i, secs) →
        ∀ m, m = ID_SEC_CONFLICTS ∨ m = ID_SEC_COVERAGE →
          secs.countP (fun t => m.isPrefixOf t) ≤ 1) :
    (∀ w ∈ update_metadata_comment cs id text,
        List.Pairwise strLeR (parse_sections (wbody w))
          ∧ ∀ m, m = ID_SEC_CONFLICTS ∨ m = ID_SEC_COVERAGE →
            (parse_sections (wbody w)).countP (fun t => m.isPrefixOf t) ≤ 1)
    ∧ (∀ i secs, get_metadata_sections cs = some (i, secs) →
        update_metadata_comment cs id text = []
          ∨ ∃ b, update_metadata_comment cs id text = [Write.edit i b])
    ∧ (get_metadata_sections cs = none →
        ∃ b, update_metadata_comment cs id text = [Write.create b])
    ∧ (cs.countP (fun b => ID_METADATA.isPrefixOf b) ≤ 1 →
        (applyWrites cs (update_metadata_comment cs id text)).countP
          (fun b => ID_METADATA.isPrefixOf b) ≤ 1) := by
  refine ⟨?_, ?_, ?_, ?_⟩
  · intro w hw
    cases hmeta : get_metadata_sections cs with
    | none =>
      obtain ⟨hupdc, -⟩ := update_state_create cs id text hmeta hid htext
      rw [hupdc, List.mem_singleton] at hw
      subst hw
      simp only [wbody]
      have hparse : parse_sections (get_metadata_comment [id ++ text]) = [id ++ text] := by
        rw [parse_get_metadata_comment [id ++ text] (fun s hs => by
          rw [List.mem_singleton] at hs
          subst hs
          exact new_section_wf hid htext), sortStr_singleton]
      rw [hparse]
      refine ⟨List.pairwise_singleton _ _, ?_⟩
      intro m _
      exact le_trans (List.countP_le_length _) (by simp)
    | some isecs =>
      obtain ⟨i, secs⟩ := isecs
      cases hupd : upd_secs id text secs with
      | upToDate =>
        rw [update_state_upToDate cs id text i secs hmeta hupd] at hw
        simp at hw
      | replaced secs2 =>
        have hwf := secs2_wf_of_replaced cs id text i secs secs2 hid htext hmeta hupd
        obtain ⟨hupdc, -⟩ := update_state_replaced cs id text i secs secs2 hmeta hupd hwf
        rw [hupdc, List.mem_singleton] at hw
        subst hw
        simp only [wbody]
        rw [parse_get_metadata_comment secs2 hwf]
        refine ⟨sortStr_sorted secs2, ?_⟩
        intro m hm2
        rw [sortStr_countP]
        obtain ⟨a, s, b, hl, hl2, ha, hm, -⟩ :=
          upd_secs_replaced_decomp id text secs secs2 hupd
        have hPeq : (m.isPrefixOf (id ++ text)) = (m.isPrefixOf s) := by
          by_cases hmid : m = id
          · subst hmid
            rw [marker_prefix_new, hm]
          · rw [marker_prefix_excl hid hm2 (fun hcontra => hmid hcontra.symm)
              (marker_prefix_new id text),
              marker_prefix_excl hid hm2 (fun hcontra => hmid hcontra.symm) hm]
        have hc := hdup i secs hmeta m hm2
        rw [hl, List.countP_append, List.countP_cons] at hc
        rw [hl2, List.countP_append, List.countP_cons, hPeq]
        exact hc
      | absent =>
        have hall := upd_secs_absent_all id text secs hupd
        have hwfs := secs_wf_of_meta cs i secs hmeta
        have hwf : ∀ x ∈ secs ++ [id ++ text],
            MARK.isPrefixOf x = true ∧ clean (x.drop 4) := by
          intro x hx
          rcases List.mem_append.mp hx with h1 | h2
          · exact hwfs x h1
          · rw [List.mem_singleton] at h2
            subst h2
            exact new_section_wf hid htext
        obtain ⟨hupdc, -⟩ := update_state_absent cs id text i secs hmeta hupd hid htext
        rw [hupdc, List.mem_singleton] at hw
        subst hw
        simp only [wbody]
        rw [parse_get_metadata_comment _ hwf]
        refine ⟨sortStr_sorted _, ?_⟩
        intro m hm2
        rw [sortStr_countP, List.countP_append]
        by_cases hmid : m = id
        · subst hmid
          have h0 : secs.countP (fun t => m.isPrefixOf t) = 0 :=
            List.countP_eq_zero.mpr (fun x hx => by simpa using hall x hx)
          rw [h0]
          simp [List.countP_cons, marker_prefix_new]
        · have h1 : List.countP (fun t => m.isPrefixOf t) [id ++ text] = 0 := by
            simp [List.countP_cons,
              marker_prefix_excl hid hm2 (fun hcontra => hmid hcontra.symm)
                (marker_prefix_new id text)]
          rw [h1]
          simpa using hdup i secs hmeta m hm2
  · intro i secs hmeta
    cases hupd : upd_secs id text secs with
    | upToDate => exact Or.inl (update_state_upToDate cs id text i secs hmeta hupd)
    | replaced secs2 =>
      have hwf := secs2_wf_of_replaced cs id text i secs secs2 hid htext hmeta hupd
      exact Or.inr ⟨_, (update_state_replaced cs id text i secs secs2 hmeta hupd hwf).1⟩
    | absent =>
      exact Or.inr ⟨_, (update_state_absent cs id text i secs hmeta hupd hid htext).1⟩
  · intro hmeta
    exact ⟨_, (update_state_create cs id text hmeta hid htext).1⟩
  · intro hc1
    cases hmeta : get_metadata_sections cs with
    | none =>
      obtain ⟨hupdc, -⟩ := update_state_create cs id text hmeta hid htext
      rw [hupdc, applyWrites_create, List.countP_append]
      have h0 : cs.countP (fun b => ID_METADATA.isPrefixOf b) = 0 :=
        List.countP_eq_zero.mpr (fun x hx => by
          simpa using
            find_metadata_none_all cs (get_metadata_sections_none_inv cs hmeta) x hx)
      rw [h0]
      simp [List.countP_cons, metadata_prefix_comment]
    | some isecs =>
      obtain ⟨i, secs⟩ := isecs
      cases hupd : upd_secs id text secs with
      | upToDate =>
        rw [update_state_upToDate cs id text i secs hmeta hupd, applyWrites_nil]
        exact hc1
      | replaced secs2 =>
        have hwf := secs2_wf_of_replaced cs id text i secs secs2 hid htext hmeta hupd
        obtain ⟨hupdc, -⟩ := update_state_replaced cs id text i secs secs2 hmeta hupd hwf
        rw [hupdc, applyWrites_edit]
        obtain ⟨b0, hfm, -⟩ := get_metadata_sections_inv cs i secs hmeta
        obtain ⟨hget, hpb0⟩ := find_metadata_get cs i b0 hfm
        rw [countP_set_eq _ cs i b0 _ hget (by rw [hpb0, metadata_prefix_comment])]
        exact hc1
      | absent =>
        obtain ⟨hupdc, -⟩ := update_state_absent cs id text i secs hmeta hupd hid htext
        rw [hupdc, applyWrites_edit]
        obtain ⟨b0, hfm, -⟩ := get_metadata_sections_inv cs i secs hmeta
        obtain ⟨hget, hpb0⟩ := find_metadata_get cs i b0 hfm
        rw [countP_set_eq _ cs i b0 _ hget (by rw [hpb0, metadata_prefix_comment])]
        exact hc1

/-- Witness for C8 at a concrete input: with no existing Annotation, the
single write is the creation of a new metadata comment. -/
theorem annotation_invariant_witness :
    ∃ b, update_metadata_comment [] ID_SEC_CONFLICTS NO_CONFLICTS_TEXT =
      [Write.create b] :=
  (annotation_invariant [] ID_SEC_CONFLICTS NO_CONFLICTS_TEXT (Or.inl rfl) (by decide)
    (fun i secs h => by simp [get_metadata_sections, find_metadata] at h)).2.2.1 rfl

/-! Claim C10: the section-format round trip. -/

/-- C10: for every section list in which each element begins with a `<!--`
marker and the remainder (marker tail and body) contains no further `<!--`,
parsing the comment body produced by `get_metadata_comment` via the section
parser of `get_metadata_sections` yields exactly the sorted section list; and
a section whose body does contain `<!--` is divided by the split-based parser
into spurious extra sections, so the round trip fails without the
no-embedded-marker precondition. -/
theorem section_format_roundtrip :
    (∀ l : List Str, (∀ s ∈ l, MARK.isPrefixOf s = true ∧ clean (s.drop 4)) →
        parse_sections (get_metadata_comment l) = sortStr l)
    ∧ (parse_sections (get_metadata_comment [badSec])).length = 2
    ∧ parse_sections (get_metadata_comment [badSec]) ≠ sortStr [badSec] := by
  refine ⟨parse_get_metadata_comment, by decide, by decide⟩

/-- Witness for C10 at a concrete input: two clean sections serialize and
parse back in sorted order. -/
theorem section_format_roundtrip_witness :
    parse_sections (get_metadata_comment [ID_SEC_COVERAGE, ID_SEC_CONFLICTS]) =
      [ID_SEC_CONFLICTS, ID_SEC_COVERAGE] := by
  have h := section_format_roundtrip.1 [ID_SEC_COVERAGE, ID_SEC_CONFLICTS] (by decide)
  rw [h]
  decide
